import Mathlib

/-!
Verification of the adaptive pruning scheduler, training and evaluation
routines of `prune_alexnet.py` (pytorch-ssd repository).

The Python code is shallowly embedded: machine floats carried as reward
signals (accuracy gains, losses) are modelled as rationals, the state of
the scheduler loop is an explicit record, and operations that can raise a
Python exception (`list.pop(0)` on an empty list, division by zero,
reading an unassigned local) return `Option`, with `none` marking the
fault.
-/

namespace PruneAlexNet

/-- Configuration constants of the scheduler, from the argparse flags
`--window`, `--prune_conv_num`, `--prune_linear_num` (Python ints). -/
structure Args where
  window : ℤ
  prune_conv_num : ℤ
  prune_linear_num : ℤ
  deriving DecidableEq, Repr

/-- State of the pruning loop: the two score lists `conv_scores` and
`linear_scores` (lines 200-201), the filters-pruned counter `i`
(line 202) and the pass counter `iteration` (line 203). -/
structure PruneState where
  conv_scores : List ℚ
  linear_scores : List ℚ
  i : ℤ
  iteration : ℤ
  deriving DecidableEq, Repr

/-- The initial loop state of lines 200-203: both score lists empty,
`i = 0`, `iteration = 0`. -/
def initState : PruneState :=
  { conv_scores := [], linear_scores := [], i := 0, iteration := 0 }

/-- Which layer class a loop pass prunes. -/
inductive LayerClass where
  | conv
  | linear
  deriving DecidableEq, Repr

/-- The branch selection of the loop body (lines 206-229): conv warm-up
when `len(conv_scores) < args.window`, else linear warm-up when
`len(linear_scores) < args.window`, else the adaptive comparison
`sum(conv_scores) > sum(linear_scores)` (conv on strictly greater,
linear otherwise). -/
def pruneChoice (a : Args) (s : PruneState) : LayerClass :=
  if (s.conv_scores.length : ℤ) < a.window then .conv
  else if (s.linear_scores.length : ℤ) < a.window then .linear
  else if s.conv_scores.sum > s.linear_scores.sum then .conv
  else .linear

/-- One pass of the `while i < prune_num` body (lines 204-240), as far
as the scheduler state is concerned.  `gain` is the accuracy gain
returned by the pruner call of that pass.  The four branches mirror the
source: warm-up branches append to the score list and advance `i` by the
batch size; adaptive branches first `pop(0)` (a fault, `none`, when the
list is empty) and then append.  `iteration` is incremented at the end
of every pass (line 240). -/
def pruneStep (a : Args) (gain : ℚ) (s : PruneState) : Option PruneState :=
  if (s.conv_scores.length : ℤ) < a.window then
    some { conv_scores := s.conv_scores ++ [gain]
           linear_scores := s.linear_scores
           i := s.i + a.prune_conv_num
           iteration := s.iteration + 1 }
  else if (s.linear_scores.length : ℤ) < a.window then
    some { conv_scores := s.conv_scores
           linear_scores := s.linear_scores ++ [gain]
           i := s.i + a.prune_linear_num
           iteration := s.iteration + 1 }
  else if s.conv_scores.sum > s.linear_scores.sum then
    match s.conv_scores with
    | [] => none
    | _ :: rest =>
      some { conv_scores := rest ++ [gain]
             linear_scores := s.linear_scores
             i := s.i + a.prune_conv_num
             iteration := s.iteration + 1 }
  else
    match s.linear_scores with
    | [] => none
    | _ :: rest =>
      some { conv_scores := s.conv_scores
             linear_scores := rest ++ [gain]
             i := s.i + a.prune_linear_num
             iteration := s.iteration + 1 }

/-- The checkpoint gate of line 235: the architecture dump and the
weights snapshot are written during a pass exactly when the pass is
entered with `iteration % 30 == 0` (the test precedes the
`iteration += 1` of line 240). -/
def writesCheckpoint (s : PruneState) : Bool :=
  s.iteration % 30 == 0

/-- C1: in every pass the branch is chosen in strict priority order:
a short conv window forces the conv branch whatever the linear window
holds, a full conv window and a short linear window force the linear
branch, and only two full windows reach the adaptive sum comparison. -/
theorem pruneStep_priority_order (a : Args) (gain : ℚ) (s : PruneState) :
    ((s.conv_scores.length : ℤ) < a.window →
      pruneStep a gain s = some
        { conv_scores := s.conv_scores ++ [gain]
          linear_scores := s.linear_scores
          i := s.i + a.prune_conv_num
          iteration := s.iteration + 1 }) ∧
    (¬ (s.conv_scores.length : ℤ) < a.window →
      (s.linear_scores.length : ℤ) < a.window →
      pruneStep a gain s = some
        { conv_scores := s.conv_scores
          linear_scores := s.linear_scores ++ [gain]
          i := s.i + a.prune_linear_num
          iteration := s.iteration + 1 }) ∧
    (¬ (s.conv_scores.length : ℤ) < a.window →
      ¬ (s.linear_scores.length : ℤ) < a.window →
      pruneChoice a s =
        (if s.conv_scores.sum > s.linear_scores.sum then .conv else .linear)) := by
  refine ⟨fun h1 => ?_, fun h1 h2 => ?_, fun h1 h2 => ?_⟩
  · simp [pruneStep, h1]
  · simp [pruneStep, h1, h2]
  · simp [pruneChoice, h1, h2]

/-- Witness for C1: each branch of the priority order exercised on a
concrete state. -/
theorem pruneStep_priority_order_witness :
    pruneStep ⟨2, 1, 10⟩ 5 ⟨[1], [7, 7], 0, 0⟩ =
      some ⟨[1, 5], [7, 7], 1, 1⟩ ∧
    pruneStep ⟨2, 1, 10⟩ 5 ⟨[1, 2], [7], 3, 4⟩ =
      some ⟨[1, 2], [7, 5], 13, 5⟩ ∧
    pruneChoice ⟨2, 1, 10⟩ ⟨[1, 2], [7, 7], 3, 4⟩ =
      (if ([1, 2] : List ℚ).sum > ([7, 7] : List ℚ).sum
        then LayerClass.conv else LayerClass.linear) :=
  ⟨(pruneStep_priority_order ⟨2, 1, 10⟩ 5 ⟨[1], [7, 7], 0, 0⟩).1 (by decide),
   (pruneStep_priority_order ⟨2, 1, 10⟩ 5 ⟨[1, 2], [7], 3, 4⟩).2.1
     (by decide) (by decide),
   (pruneStep_priority_order ⟨2, 1, 10⟩ 5 ⟨[1, 2], [7, 7], 3, 4⟩).2.2
     (by decide) (by decide)⟩

/-- C2: once both windows hold `W` entries the decision is a pure
function of the two window sums (`pruneChoice` is conv iff
`conv_sum > linear_sum`, linear otherwise, ties included), and — as
long as the window capacity is positive, so that the `pop(0)` of the
adaptive branches acts on a non-empty list — the pass evicts the oldest
entry of the chosen window and appends the new gain. -/
theorem pruneStep_adaptive_decision (a : Args) (gain : ℚ) (s : PruneState)
    (hc : (s.conv_scores.length : ℤ) = a.window)
    (hl : (s.linear_scores.length : ℤ) = a.window) :
    (pruneChoice a s = .conv ↔ s.conv_scores.sum > s.linear_scores.sum) ∧
    (pruneChoice a s = .linear ↔ ¬ s.conv_scores.sum > s.linear_scores.sum) ∧
    (1 ≤ a.window → s.conv_scores.sum > s.linear_scores.sum →
      pruneStep a gain s = some
        { conv_scores := s.conv_scores.tail ++ [gain]
          linear_scores := s.linear_scores
          i := s.i + a.prune_conv_num
          iteration := s.iteration + 1 }) ∧
    (1 ≤ a.window → ¬ s.conv_scores.sum > s.linear_scores.sum →
      pruneStep a gain s = some
        { conv_scores := s.conv_scores
          linear_scores := s.linear_scores.tail ++ [gain]
          i := s.i + a.prune_linear_num
          iteration := s.iteration + 1 }) := by
  have hc' : ¬ (s.conv_scores.length : ℤ) < a.window := by omega
  have hl' : ¬ (s.linear_scores.length : ℤ) < a.window := by omega
  refine ⟨?_, ?_, fun hw hgt => ?_, fun hw hle => ?_⟩
  · constructor
    · intro h
      by_contra hsum
      simp [pruneChoice, hc', hl', hsum] at h
    · intro hsum
      simp [pruneChoice, hc', hl', hsum]
  · constructor
    · intro h
      by_contra hsum
      simp [pruneChoice, hc', hl', hsum] at h
    · intro hsum
      simp [pruneChoice, hc', hl', hsum]
  · obtain ⟨x, rest, hx⟩ : ∃ x rest, s.conv_scores = x :: rest := by
      cases hxs : s.conv_scores with
      | nil => rw [hxs] at hc; simp at hc; omega
      | cons x rest => exact ⟨x, rest, rfl⟩
    rw [hx] at hc hgt
    simp only [List.length_cons, List.sum_cons] at hc hgt
    have hlen2 : ¬ ((rest.length : ℤ) + 1 < a.window) := by
      push_cast at hc ⊢; omega
    simp [pruneStep, hx, hlen2, hl', hgt]
  · obtain ⟨x, rest, hx⟩ : ∃ x rest, s.linear_scores = x :: rest := by
      cases hxs : s.linear_scores with
      | nil => rw [hxs] at hl; simp at hl; omega
      | cons x rest => exact ⟨x, rest, rfl⟩
    rw [hx] at hl hle
    simp only [List.length_cons, List.sum_cons] at hl hle
    have hlen2 : ¬ ((rest.length : ℤ) + 1 < a.window) := by
      push_cast at hl ⊢; omega
    have hsum2 : ¬ (x + rest.sum < s.conv_scores.sum) := by
      simpa using hle
    simp [pruneStep, hx, hc', hlen2, hsum2]

/-- Witness for C2: a tie (both windows sum to 8) falls to the linear
branch and evicts the oldest linear score. -/
theorem pruneStep_adaptive_decision_witness :
    pruneChoice ⟨2, 1, 10⟩ ⟨[3, 5], [6, 2], 20, 7⟩ = LayerClass.linear ∧
    pruneStep ⟨2, 1, 10⟩ 4 ⟨[3, 5], [6, 2], 20, 7⟩ =
      some ⟨[3, 5], [2, 4], 30, 8⟩ :=
  ⟨((pruneStep_adaptive_decision ⟨2, 1, 10⟩ 4 ⟨[3, 5], [6, 2], 20, 7⟩
      (by decide) (by decide)).2.1).2 (by norm_num),
   ((pruneStep_adaptive_decision ⟨2, 1, 10⟩ 4 ⟨[3, 5], [6, 2], 20, 7⟩
      (by decide) (by decide)).2.2).2 (by decide) (by norm_num)⟩

/-- C3: a pass never grows a score list beyond the window capacity;
under-capacity insertions are plain appends, and an insertion into a
list at (or above) capacity removes the oldest element (`pop(0)`) and
then appends the newest, keeping the length unchanged — in particular a
list at exactly capacity `W` stays at exactly `W`. -/
theorem pruneStep_window_fifo (a : Args) (gain : ℚ) (s s' : PruneState)
    (h : pruneStep a gain s = some s') :
    ((s.conv_scores.length : ℤ) ≤ a.window → (s'.conv_scores.length : ℤ) ≤ a.window) ∧
    ((s.linear_scores.length : ℤ) ≤ a.window → (s'.linear_scores.length : ℤ) ≤ a.window) ∧
    ((s.conv_scores.length : ℤ) = a.window → (s'.conv_scores.length : ℤ) = a.window) ∧
    ((s.linear_scores.length : ℤ) = a.window → (s'.linear_scores.length : ℤ) = a.window) ∧
    (s'.conv_scores = s.conv_scores ∨
      ((s.conv_scores.length : ℤ) < a.window ∧ s'.conv_scores = s.conv_scores ++ [gain]) ∨
      (¬ (s.conv_scores.length : ℤ) < a.window ∧
        s'.conv_scores = s.conv_scores.tail ++ [gain] ∧
        s'.conv_scores.length = s.conv_scores.length)) ∧
    (s'.linear_scores = s.linear_scores ∨
      ((s.linear_scores.length : ℤ) < a.window ∧ s'.linear_scores = s.linear_scores ++ [gain]) ∨
      (¬ (s.linear_scores.length : ℤ) < a.window ∧
        s'.linear_scores = s.linear_scores.tail ++ [gain] ∧
        s'.linear_scores.length = s.linear_scores.length)) := by
  unfold pruneStep at h
  split_ifs at h with h1 h2 h3
  · obtain rfl : _ = s' := Option.some.inj h
    refine ⟨fun _ => ?_, fun hle => hle, fun heq => ?_, fun heq => heq,
      Or.inr (Or.inl ⟨h1, rfl⟩), Or.inl rfl⟩
    · simp only [List.length_append, List.length_cons, List.length_nil]
      push_cast
      omega
    · exact absurd heq (by omega)
  · obtain rfl : _ = s' := Option.some.inj h
    refine ⟨fun hle => hle, fun _ => ?_, fun heq => heq, fun heq => ?_,
      Or.inl rfl, Or.inr (Or.inl ⟨h2, rfl⟩)⟩
    · simp only [List.length_append, List.length_cons, List.length_nil]
      push_cast
      omega
    · exact absurd heq (by omega)
  · cases hcs : s.conv_scores with
    | nil =>
      rw [hcs] at h
      exact absurd h (by simp)
    | cons x rest =>
      rw [hcs] at h
      obtain rfl : _ = s' := Option.some.inj h
      refine ⟨fun hle => ?_, fun hle => hle, fun heq => ?_, fun heq => heq,
        Or.inr (Or.inr ⟨by rw [hcs] at h1; exact h1, by simp, by simp⟩), Or.inl rfl⟩
      · simpa using hle
      · simpa using heq
  · cases hls : s.linear_scores with
    | nil =>
      rw [hls] at h
      exact absurd h (by simp)
    | cons x rest =>
      rw [hls] at h
      obtain rfl : _ = s' := Option.some.inj h
      refine ⟨fun hle => hle, fun hle => ?_, fun heq => heq, fun heq => ?_,
        Or.inl rfl, Or.inr (Or.inr ⟨by rw [hls] at h2; exact h2, by simp, by simp⟩)⟩
      · simpa using hle
      · simpa using heq

/-- Witness for C3: one warm-up append and one at-capacity eviction,
both on concrete states. -/
theorem pruneStep_window_fifo_witness :
    ((((⟨[1], [], 1, 1⟩ : PruneState).conv_scores.length : ℤ) ≤ 2) ∧
      ((⟨[1], [], 1, 1⟩ : PruneState).conv_scores =
        initState.conv_scores ++ [1])) ∧
    ((⟨[2], [0], 6, 7⟩ : PruneState).conv_scores.length =
      (⟨[1], [0], 5, 6⟩ : PruneState).conv_scores.length) :=
  ⟨⟨(pruneStep_window_fifo ⟨2, 1, 10⟩ 1 initState ⟨[1], [], 1, 1⟩ (by decide)).1
      (by decide),
    ((pruneStep_window_fifo ⟨2, 1, 10⟩ 1 initState ⟨[1], [], 1, 1⟩
        (by decide)).2.2.2.2.1).elim
      (by decide) (fun hc => hc.elim (fun hc => hc.2) (fun hc => hc.2.1))⟩,
   ((pruneStep_window_fifo ⟨1, 1, 10⟩ 2 ⟨[1], [0], 5, 6⟩ ⟨[2], [0], 6, 7⟩
        (by simp [pruneStep])).2.2.2.2.1).elim
      (by decide) (fun hc => hc.elim (fun hc => absurd hc.1 (by decide))
        (fun hc => hc.2.2))⟩

/-- Shape of a successful pass: the pass counter advances by exactly
one, and the filters-pruned counter advances by the batch size of the
class selected by `pruneChoice`. -/
theorem pruneStep_shape (a : Args) (gain : ℚ) (s s' : PruneState)
    (h : pruneStep a gain s = some s') :
    s'.iteration = s.iteration + 1 ∧
    ((pruneChoice a s = .conv ∧ s'.i = s.i + a.prune_conv_num) ∨
     (pruneChoice a s = .linear ∧ s'.i = s.i + a.prune_linear_num)) := by
  unfold pruneStep at h
  split_ifs at h with h1 h2 h3
  · obtain rfl : _ = s' := Option.some.inj h
    exact ⟨rfl, Or.inl ⟨by simp [pruneChoice, h1], rfl⟩⟩
  · obtain rfl : _ = s' := Option.some.inj h
    exact ⟨rfl, Or.inr ⟨by simp [pruneChoice, h1, h2], rfl⟩⟩
  · cases hcs : s.conv_scores with
    | nil => rw [hcs] at h; exact absurd h (by simp)
    | cons x rest =>
      rw [hcs] at h
      obtain rfl : _ = s' := Option.some.inj h
      exact ⟨rfl, Or.inl ⟨by simp [pruneChoice, h1, h2, h3], rfl⟩⟩
  · cases hls : s.linear_scores with
    | nil => rw [hls] at h; exact absurd h (by simp)
    | cons x rest =>
      rw [hls] at h
      obtain rfl : _ = s' := Option.some.inj h
      exact ⟨rfl, Or.inr ⟨by simp [pruneChoice, h1, h2, h3], rfl⟩⟩

/-- `n` passes of the loop body starting from `s`.  The pruner is an
oracle `gains` supplying the accuracy gain observed in the pass entered
with a given value of the `iteration` counter; `none` when some pass
faults. -/
def runN (a : Args) (gains : ℤ → ℚ) : ℕ → PruneState → Option PruneState
  | 0, s => some s
  | n + 1, s =>
    match pruneStep a (gains s.iteration) s with
    | none => none
    | some s' => runN a gains n s'

/-- Across `n` successful passes the `iteration` counter advances by
exactly `n`. -/
theorem runN_iteration (a : Args) (gains : ℤ → ℚ) :
    ∀ (n : ℕ) (s s' : PruneState), runN a gains n s = some s' →
      s'.iteration = s.iteration + n := by
  intro n
  induction n with
  | zero =>
    intro s s' h
    obtain rfl : s = s' := Option.some.inj h
    simp
  | succ n ih =>
    intro s s' h
    simp only [runN] at h
    cases hstep : pruneStep a (gains s.iteration) s with
    | none => rw [hstep] at h; exact absurd h (by simp)
    | some t =>
      rw [hstep] at h
      have h1 := (pruneStep_shape a _ s t hstep).1
      have h2 := ih t s' h
      rw [h2, h1]
      push_cast
      ring

/-- C5: entering a pass with counter value `k` (reached after `k`
successful passes from the initial state), the checkpoint files are
written if and only if `k mod 30 = 0`; the very first pass (`k = 0`)
writes a checkpoint. -/
theorem checkpoint_cadence (a : Args) (gains : ℤ → ℚ) (k : ℕ)
    (s : PruneState) (h : runN a gains k initState = some s) :
    s.iteration = (k : ℤ) ∧
    (writesCheckpoint s = true ↔ (k : ℤ) % 30 = 0) ∧
    writesCheckpoint initState = true := by
  have hit := runN_iteration a gains k initState s h
  simp only [initState] at hit
  rw [zero_add] at hit
  refine ⟨hit, ?_, by decide⟩
  simp [writesCheckpoint, hit]

/-- Witness for C5: one warm-up pass from the initial state reaches
counter value 1, where no checkpoint is due; the initial pass itself
writes one. -/
theorem checkpoint_cadence_witness :
    (⟨[1], [], 1, 1⟩ : PruneState).iteration = ((1 : ℕ) : ℤ) ∧
    (writesCheckpoint ⟨[1], [], 1, 1⟩ = true ↔ ((1 : ℕ) : ℤ) % 30 = 0) ∧
    writesCheckpoint initState = true :=
  checkpoint_cadence ⟨2, 1, 10⟩ (fun _ => 1) 1 ⟨[1], [], 1, 1⟩ (by decide)

/-- The checkpoint gate as the spec's per-iteration protocol describes
it (step f increments `iteration_index`, step g then tests
`iteration_index mod 30 == 0`): a gate evaluated on the
already-incremented index.  This definition follows the spec's words,
for comparison with `writesCheckpoint`, which follows the code. -/
def specIncrementFirstGate (s : PruneState) : Bool :=
  (s.iteration + 1) % 30 == 0

/-- C6 counterexample: at the very first pass (entered with
`iteration = 0`) the code writes a checkpoint, while a gate reading the
already-incremented index would not — the claimed increment-before-test
ordering disagrees with the code on this input. -/
theorem checkpoint_gate_order_counterexample :
    writesCheckpoint initState = true ∧
    specIncrementFirstGate initState = false ∧
    writesCheckpoint initState ≠ specIncrementFirstGate initState := by
  refine ⟨by decide, by decide, by decide⟩

/-- C6 amended: within every pass the checkpoint-cadence test is
performed before the increment — the gate reads the pre-increment
counter of the entering state `s`, and the pass then hands the
incremented counter to the successor state. -/
theorem checkpoint_gate_order_amended (a : Args) (gain : ℚ)
    (s s' : PruneState) (h : pruneStep a gain s = some s') :
    s'.iteration = s.iteration + 1 ∧
    (writesCheckpoint s = true ↔ s.iteration % 30 = 0) := by
  refine ⟨(pruneStep_shape a gain s s' h).1, ?_⟩
  simp [writesCheckpoint]

/-- Witness for C6's amended statement: the first pass from the initial
state. -/
theorem checkpoint_gate_order_amended_witness :
    (⟨[1], [], 1, 1⟩ : PruneState).iteration = initState.iteration + 1 ∧
    (writesCheckpoint initState = true ↔ initState.iteration % 30 = 0) :=
  checkpoint_gate_order_amended ⟨2, 1, 10⟩ 1 initState ⟨[1], [], 1, 1⟩
    (by decide)

/-- Result of the scheduler loop under a fuel bound: `done` when the
guard `i < prune_num` fails (normal exit), `fault` when a pass raises,
`outOfFuel` when the bound stopped the run while the guard still
held. -/
inductive LoopResult where
  | done (s : PruneState)
  | fault
  | outOfFuel (s : PruneState)
  deriving DecidableEq, Repr

/-- The scheduler loop `while i < prune_num:` of lines 204-240, with an
explicit fuel bound on the number of passes. -/
def runLoop (a : Args) (gains : ℤ → ℚ) (prune_num : ℤ) :
    ℕ → PruneState → LoopResult
  | 0, s => if s.i < prune_num then .outOfFuel s else .done s
  | fuel + 1, s =>
    if s.i < prune_num then
      match pruneStep a (gains s.iteration) s with
      | none => .fault
      | some s' => runLoop a gains prune_num fuel s'
    else .done s

/-- With a positive window capacity a pass never faults: the adaptive
branches `pop(0)` from a list whose length is at least the capacity,
hence non-empty. -/
theorem pruneStep_ne_none (a : Args) (gain : ℚ) (s : PruneState)
    (hw : 1 ≤ a.window) : pruneStep a gain s ≠ none := by
  unfold pruneStep
  split_ifs with h1 h2 h3
  · simp
  · simp
  · cases hcs : s.conv_scores with
    | nil =>
      exfalso
      rw [hcs] at h1
      simp at h1
      omega
    | cons x rest => simp
  · cases hls : s.linear_scores with
    | nil =>
      exfalso
      rw [hls] at h2
      simp at h2
      omega
    | cons x rest => simp

/-- C4: with positive batch sizes (and a positive window capacity, the
regime in which no pass faults) the filters-pruned counter strictly
grows at every pass, the loop exits normally within `prune_num − i₀`
passes of fuel, it stops exactly when the counter reaches the budget
(immediately when entered at or above it), and on exit the counter
overshoots the budget by at most `prune_conv_num − 1` or
`prune_linear_num − 1` according to the class the last pass pruned. -/
theorem scheduler_termination (a : Args) (gains : ℤ → ℚ) (N : ℤ)
    (hc : 0 < a.prune_conv_num) (hl : 0 < a.prune_linear_num)
    (hw : 1 ≤ a.window) :
    (∀ (g : ℚ) (u u' : PruneState), pruneStep a g u = some u' → u.i < u'.i) ∧
    (∀ (fuel : ℕ) (s : PruneState), ¬ s.i < N →
      runLoop a gains N fuel s = .done s) ∧
    (∀ (fuel : ℕ) (s : PruneState), (N - s.i).toNat ≤ fuel →
      ∃ s', runLoop a gains N fuel s = .done s' ∧ N ≤ s'.i ∧ s.i ≤ s'.i ∧
        (s' = s ∨ ∃ t : PruneState, t.i < N ∧
          pruneStep a (gains t.iteration) t = some s' ∧
          (pruneChoice a t = .conv → s'.i ≤ N - 1 + a.prune_conv_num) ∧
          (pruneChoice a t = .linear → s'.i ≤ N - 1 + a.prune_linear_num))) := by
  have mono : ∀ (g : ℚ) (u u' : PruneState),
      pruneStep a g u = some u' → u.i < u'.i := by
    intro g u u' h
    rcases (pruneStep_shape a g u u' h).2 with ⟨_, hi⟩ | ⟨_, hi⟩ <;> omega
  refine ⟨mono, ?_, ?_⟩
  · intro fuel s hguard
    cases fuel with
    | zero => simp [runLoop, hguard]
    | succ fuel => simp [runLoop, hguard]
  · intro fuel
    induction fuel with
    | zero =>
      intro s hfuel
      have hN : ¬ s.i < N := by omega
      exact ⟨s, by simp [runLoop, hN], by omega, le_refl _, Or.inl rfl⟩
    | succ fuel ih =>
      intro s hfuel
      by_cases hguard : s.i < N
      · cases hstep : pruneStep a (gains s.iteration) s with
        | none => exact absurd hstep (pruneStep_ne_none a _ s hw)
        | some t =>
          have hshape := (pruneStep_shape a _ s t hstep).2
          have hti : s.i < t.i := mono _ s t hstep
          have hfuel' : (N - t.i).toNat ≤ fuel := by omega
          obtain ⟨s', hrun, hNle, hle, hlast⟩ := ih t hfuel'
          refine ⟨s', ?_, hNle, by omega, ?_⟩
          · simp [runLoop, hguard, hstep, hrun]
          · rcases hlast with rfl | ⟨t0, ht0⟩
            · refine Or.inr ⟨s, hguard, hstep, fun hch => ?_, fun hch => ?_⟩
              · rcases hshape with ⟨_, hi⟩ | ⟨hch', _⟩
                · omega
                · rw [hch] at hch'
                  simp at hch'
              · rcases hshape with ⟨hch', _⟩ | ⟨_, hi⟩
                · rw [hch] at hch'
                  simp at hch'
                · omega
            · exact Or.inr ⟨t0, ht0⟩
      · exact ⟨s, by simp [runLoop, hguard], by omega, le_refl _, Or.inl rfl⟩

/-- Witness for C4: budget 3, both batch sizes 1, window capacity 1;
three passes of fuel reach the budget exactly. -/
theorem scheduler_termination_witness :
    ∃ s', runLoop ⟨1, 1, 1⟩ (fun _ => 0) 3 3 initState = .done s' ∧
      (3 : ℤ) ≤ s'.i ∧ initState.i ≤ s'.i ∧
      (s' = initState ∨ ∃ t : PruneState, t.i < 3 ∧
        pruneStep ⟨1, 1, 1⟩ ((fun _ => (0 : ℚ)) t.iteration) t = some s' ∧
        (pruneChoice ⟨1, 1, 1⟩ t = .conv → s'.i ≤ 3 - 1 + 1) ∧
        (pruneChoice ⟨1, 1, 1⟩ t = .linear → s'.i ≤ 3 - 1 + 1)) :=
  (scheduler_termination ⟨1, 1, 1⟩ (fun _ => 0) 3 (by decide) (by decide)
    (by decide)).2.2 3 initState (by decide)

/-- C10: with window capacity `≤ 0` and a positive budget the first
pass already fails: both warm-up guards are false at the empty windows,
the adaptive comparison of two empty sums (`0 > 0`) selects linear, and
the `pop(0)` on the empty linear list faults, so the loop never
completes a single pass. -/
theorem window_nonpositive_faults (a : Args) (gains : ℤ → ℚ) (gain : ℚ)
    (N : ℤ) (fuel : ℕ) (hw : a.window ≤ 0) (hN : 0 < N) :
    pruneChoice a initState = .linear ∧
    pruneStep a gain initState = none ∧
    runLoop a gains N (fuel + 1) initState = .fault := by
  have h0 : ¬ ((0 : ℤ) < a.window) := by omega
  have hchoice : pruneChoice a initState = .linear := by
    simp [pruneChoice, initState, h0]
  have hstep : ∀ g : ℚ, pruneStep a g initState = none := by
    intro g
    simp [pruneStep, initState, h0]
  have hguard : initState.i < N := hN
  refine ⟨hchoice, hstep gain, ?_⟩
  simp [runLoop, hguard, hstep]

/-- Witness for C10: window capacity 0 and budget 5 fault on the very
first pass. -/
theorem window_nonpositive_faults_witness :
    pruneChoice ⟨0, 1, 10⟩ initState = LayerClass.linear ∧
    pruneStep ⟨0, 1, 10⟩ 0 initState = none ∧
    runLoop ⟨0, 1, 10⟩ (fun _ => 0) 5 (0 + 1) initState = .fault :=
  window_nonpositive_faults ⟨0, 1, 10⟩ (fun _ => 0) 0 5 0 (by decide)
    (by decide)

/-- One mini-batch as the evaluation loop of `eval` (lines 125-135)
observes it: the number of examples `inputs.size(0)`, the batch loss
`loss.item()`, and the number of correct predictions. -/
structure Batch where
  size : ℕ
  loss : ℚ
  corrects : ℕ
  deriving DecidableEq, Repr

/-- The example count `num` accumulated over the loader (line 135). -/
def totalExamples (loader : List Batch) : ℕ :=
  (loader.map Batch.size).sum

/-- `eval` (lines 119-138): accumulates `loss.item() * inputs.size(0)`,
the correct-prediction count and the example count over the loader,
then divides both accumulators by `num` (lines 136-137).  The divisions
are unguarded: `num = 0` raises `ZeroDivisionError`, modelled as
`none`. -/
def evalModel (loader : List Batch) : Option (ℚ × ℚ) :=
  let running_loss := (loader.map fun b => b.loss * (b.size : ℚ)).sum
  let running_corrects := (loader.map Batch.corrects).sum
  let num := totalExamples loader
  if num = 0 then none
  else some (running_loss / (num : ℚ), (running_corrects : ℚ) / (num : ℚ))

/-- C8: on a non-empty loader (every real batch holds at least one
example) the example count is positive and `eval` returns the
size-weighted mean loss and accuracy by a well-defined division; on an
empty loader the divisor is `0` and the unguarded division faults. -/
theorem eval_empty_division (loader : List Batch)
    (hb : ∀ b ∈ loader, 0 < b.size) :
    (loader ≠ [] →
      0 < totalExamples loader ∧
      evalModel loader = some
        ((loader.map fun b => b.loss * (b.size : ℚ)).sum /
            (totalExamples loader : ℚ),
          ((loader.map Batch.corrects).sum : ℚ) /
            (totalExamples loader : ℚ))) ∧
    (loader = [] → totalExamples loader = 0 ∧ evalModel loader = none) := by
  constructor
  · intro hne
    have hpos : 0 < totalExamples loader := by
      cases loader with
      | nil => exact absurd rfl hne
      | cons b rest =>
        have hbpos := hb b (by simp)
        simp only [totalExamples, List.map_cons, List.sum_cons]
        omega
    have hne0 : ¬ totalExamples loader = 0 := by omega
    exact ⟨hpos, by simp [evalModel, hne0]⟩
  · intro h
    subst h
    simp [evalModel, totalExamples]

/-- Witness for C8: a loader holding one batch of two examples. -/
theorem eval_empty_division_witness :
    0 < totalExamples [⟨2, 1, 1⟩] ∧
    evalModel [⟨2, 1, 1⟩] = some
      ((([⟨2, 1, 1⟩] : List Batch).map fun b => b.loss * (b.size : ℚ)).sum /
          (totalExamples [⟨2, 1, 1⟩] : ℚ),
        ((([⟨2, 1, 1⟩] : List Batch).map Batch.corrects).sum : ℚ) /
          (totalExamples [⟨2, 1, 1⟩] : ℚ)) :=
  (eval_empty_division [⟨2, 1, 1⟩] (by decide)).1 (by decide)

/-- SGD and scheduler configuration flags of the training routine:
`--momentum`, `--weight_decay`, `--gamma` (floats, modelled as
rationals). -/
structure SGDArgs where
  momentum : ℚ
  weight_decay : ℚ
  gamma : ℚ
  deriving DecidableEq, Repr

/-- The learning-rate scheduler constructed by `train` (line 89):
`lr_scheduler.StepLR(optimizer, step_size=7, gamma=0.1)`.  The decay
factor is the hard-coded literal `0.1`; `args.gamma` (the `--gamma`
flag of lines 40-41) is never read, unlike `args.momentum` and
`args.weight_decay` on lines 87-88. -/
def stepLRDecay (_args : SGDArgs) : ℚ := 1 / 10

/-- The scheduler's period, the hard-coded `step_size=7` of line 89. -/
def stepLRStepSize (_args : SGDArgs) : ℕ := 7

/-- The learning rate `StepLR` yields at a given epoch: the initial
rate decayed once per completed period. -/
def scheduledLR (args : SGDArgs) (lr0 : ℚ) (epoch : ℕ) : ℚ :=
  lr0 * stepLRDecay args ^ (epoch / stepLRStepSize args)

/-- C7 (code bug): the decay factor the schedule applies is the
constant `0.1` whatever `--gamma` holds — at the failing input
`gamma = 1/2` the configured flag and the applied decay differ, the
decay is the same for all flag values, and after one full period the
rate has been multiplied by `1/10`, not by the flag. -/
theorem gamma_flag_unused :
    stepLRDecay ⟨9/10, 1/2000, 1/2⟩ = 1/10 ∧
    (⟨9/10, 1/2000, 1/2⟩ : SGDArgs).gamma = 1/2 ∧
    stepLRDecay ⟨9/10, 1/2000, 1/2⟩ ≠ (⟨9/10, 1/2000, 1/2⟩ : SGDArgs).gamma ∧
    (∀ x y : SGDArgs, stepLRDecay x = stepLRDecay y) ∧
    scheduledLR ⟨9/10, 1/2000, 1/2⟩ 1 7 = 1/10 := by
  refine ⟨rfl, rfl, by norm_num [stepLRDecay], fun x y => rfl, ?_⟩
  norm_num [scheduledLR, stepLRDecay, stepLRStepSize]

/-- The epoch loop of `train` (lines 91-115) followed by the
`return val_loss, val_accuracy` of line 116.  Each epoch's validation
outcome comes from the oracle `epochEval` (`none` when that epoch's
evaluation faults); `last` carries the most recent epoch's pair, still
`none` while the locals `val_loss`/`val_accuracy` are unassigned.
Returning with them unassigned — an epoch count of zero — is the
`NameError` fault, `none`. -/
def trainLoop (epochEval : ℕ → Option (ℚ × ℚ)) :
    ℕ → ℕ → Option (ℚ × ℚ) → Option (ℚ × ℚ)
  | 0, _, last => last
  | n + 1, e, _ =>
    match epochEval e with
    | none => none
    | some v => trainLoop epochEval n (e + 1) (some v)

/-- `train(net, train_loader, val_loader, num_epochs, …)` (lines
83-116), as far as its returned value is concerned. -/
def train (num_epochs : ℕ) (epochEval : ℕ → Option (ℚ × ℚ)) :
    Option (ℚ × ℚ) :=
  trainLoop epochEval num_epochs 0 none

/-- When every epoch evaluation succeeds, the epoch loop returns a
value as soon as it runs at least one epoch or already carries one. -/
theorem trainLoop_isSome (epochEval : ℕ → Option (ℚ × ℚ))
    (hall : ∀ e, (epochEval e).isSome = true) :
    ∀ (n e : ℕ) (last : Option (ℚ × ℚ)), 1 ≤ n ∨ last.isSome = true →
      (trainLoop epochEval n e last).isSome = true := by
  intro n
  induction n with
  | zero =>
    intro e last h
    rcases h with h | h
    · omega
    · simpa [trainLoop] using h
  | succ n ih =>
    intro e last h
    cases hev : epochEval e with
    | none =>
      have := hall e
      rw [hev] at this
      simp at this
    | some v =>
      simp only [trainLoop, hev]
      exact ih (e + 1) (some v) (Or.inr (by simp))

/-- C9: with an epoch count of 0 `train` never returns a pair — the
loop body does not run and the return reads unassigned locals — so any
returned value implies at least one epoch, and one epoch suffices when
each epoch's evaluation succeeds. -/
theorem train_zero_epochs (epochEval : ℕ → Option (ℚ × ℚ)) :
    train 0 epochEval = none ∧
    (∀ (n : ℕ) (v : ℚ × ℚ), train n epochEval = some v → 1 ≤ n) ∧
    ((∀ e, (epochEval e).isSome = true) →
      ∀ n : ℕ, 1 ≤ n → (train n epochEval).isSome = true) := by
  refine ⟨rfl, ?_, ?_⟩
  · intro n v h
    cases n with
    | zero => exact absurd h (by simp [train, trainLoop])
    | succ n => omega
  · intro hall n hn
    exact trainLoop_isSome epochEval hall n 0 none (Or.inl hn)

end PruneAlexNet
